import Mathlib

/-!
Verification of the SEMANTICA repository against its natural-language
specification.

Shallow embedding conventions:
  * Python strings are modelled as `List Char` (or `String` where only
    equality matters); machine floats used for confidence values and
    retry delays are modelled as exact rationals.
  * HTTP requests are modelled by an oracle `attempts : Nat -> Attempt a`
    giving, for each 0-based attempt index, either a raised exception or
    a response carrying an HTTP status code and a parsed payload.
  * Fallible Python functions return `Except String a`; a `raise` is the
    `Except.error` case.

Sources embedded:
  * scripts/3_API/v4_simplified/config.py (constants)
  * scripts/3_API/v4_simplified/utils.py (classify_result, parse_line)
  * scripts/3_API/v4_simplified/serpro_client.py (retry loops,
    parse_response, create_fallback)
  * scripts/3_API/v4_simplified/api-val-sem/models.py (to_internal_format)
  * AE_semantica_functions.py (row filters, TF-IDF window scan,
    filtrar_por_similaridade)
  * scripts/2_PDFs/1_encontra_duplicados.py (hash grouping and moving)
-/

namespace Semantica

/-! ### config.py -/

/-- config.py line 12: maximal number of HTTP attempts. -/
def MAX_RETRIES : Nat := 3

/-- config.py line 13: base retry delay in seconds. -/
def RETRY_DELAY : ℚ := 1

/-- config.py line 38. -/
def CONFIDENCE_HIGH : ℚ := 0.7

/-- config.py line 39. -/
def CONFIDENCE_MEDIUM : ℚ := 0.5

/-! ### utils.py -/

/-- utils.py lines 37-44, `classify_result(diagnostico, confidence)`. -/
def classify_result (diagnostico : String) (confidence : ℚ) : String :=
  if diagnostico = "SIM" ∧ confidence ≥ CONFIDENCE_HIGH then "APPROVED"
  else if diagnostico = "SIM" ∧ confidence ≥ CONFIDENCE_MEDIUM then "REVIEW_REQUIRED"
  else "REJECTED"

/-- Parsed fields of one `#`-separated input line. -/
structure ParsedLine where
  id_termo : List Char
  cpf : List Char
  pratica_vedada : List Char
  justificativa : List Char
deriving Repr, DecidableEq

/-- utils.py lines 17-28, `parse_line(line)`: split on `#`; fewer than 4
parts raises ValueError; the justificativa is the `#`-join of the parts
from index 3 on. -/
def parse_line (line : List Char) : Except String ParsedLine :=
  match line.splitOn '#' with
  | p0 :: p1 :: p2 :: p3 :: rest =>
    Except.ok ⟨p0, p1, p2, List.intercalate ['#'] (p3 :: rest)⟩
  | _ => Except.error "Formato inválido"

/-! ### api-val-sem/models.py -/

/-- The four validated fields of `SemanticaInput` (models.py lines 6-28). -/
structure SemanticaInput where
  id_termo : List Char
  cpf : List Char
  pratica_vedada : List Char
  justificativa : List Char
deriving Repr, DecidableEq

/-- models.py lines 84-86, `SemanticaInput.to_internal_format`. -/
def SemanticaInput.to_internal_format (x : SemanticaInput) : List Char :=
  x.id_termo ++ '#' :: x.cpf ++ '#' :: x.pratica_vedada ++ '#' :: x.justificativa

/-! ### serpro_client.py retry loops -/

/-- Delay (seconds) slept after a failed attempt number `attempt`
(0-based), as computed at serpro_client.py lines 91 and 182:
`delay = RETRY_DELAY * (attempt + 1)`. -/
def retryDelay (attempt : Nat) : ℚ := RETRY_DELAY * (attempt + 1)

/-- Outcome of a single HTTP attempt: either an exception raised while
performing the request (or while decoding its body), or a response with
an HTTP status code and an already-decoded payload. -/
inductive Attempt (α : Type) where
  | exn : Attempt α
  | response (status : Nat) (payload : α) : Attempt α
deriving Repr, DecidableEq

/-- Whether an attempt outcome is a response with HTTP status 200. -/
def Attempt.is200 : Attempt α → Bool
  | .exn => false
  | .response s _ => s == 200

/-- Payload carried by `token` responses (`response.json()` of the OAuth
endpoint). -/
structure TokenData where
  access_token : String
  expires_in : ℚ
deriving Repr, DecidableEq

/-- Access token carried by an attempt outcome (meaningful only for
responses). -/
def Attempt.tokenOf : Attempt TokenData → String
  | .exn => ""
  | .response _ td => td.access_token

/-- serpro_client.py lines 44-47: the cached token is reused when both
`self.access_token` and `self.token_expires_at` are set and the current
time is before the expiry. -/
def cachedTokenValid (tok : Option String) (exp : Option ℚ) (now : ℚ) : Bool :=
  match tok, exp with
  | some _, some e => decide (now < e)
  | _, _ => false

/-- The `for attempt in range(MAX_RETRIES)` loop of `get_access_token`
(serpro_client.py lines 54-97): attempt `i` is performed; a status-200
response returns its access token at once; any other status or an
exception falls through to the next attempt; exhausting the budget
raises. -/
def tokenRetryLoop (attempts : Nat → Attempt TokenData) : Nat → Nat → Except String String
  | _, 0 => Except.error "Falha ao obter token após MAX_RETRIES tentativas"
  | i, fuel + 1 =>
    match attempts i with
    | .response s td =>
      if s = 200 then Except.ok td.access_token
      else tokenRetryLoop attempts (i + 1) fuel
    | .exn => tokenRetryLoop attempts (i + 1) fuel

/-- serpro_client.py lines 40-101, `get_access_token`: reuse a valid
cached token, otherwise run the retry loop. -/
def get_access_token (tok : Option String) (exp : Option ℚ) (now : ℚ)
    (attempts : Nat → Attempt TokenData) : Except String String :=
  match tok, exp with
  | some t, some e =>
    if now < e then Except.ok t else tokenRetryLoop attempts 0 MAX_RETRIES
  | _, _ => tokenRetryLoop attempts 0 MAX_RETRIES

/-- State of one run of the `call_llm` loop: the return value (or raised
exception), the Bearer token sent on each performed attempt in order,
and the final value of `self.access_token`. -/
structure LlmRun (β : Type) where
  value : Except String β
  sentTokens : List String
  finalAccessToken : Option String

/-- The `for attempt in range(MAX_RETRIES)` loop of `call_llm`
(serpro_client.py lines 130-188).  `headerToken` is the token baked into
the `headers` dict before the loop (lines 113-116); it is sent on every
attempt.  A 200 response returns the parsed payload; a 401 clears
`self.access_token` and continues; any other status or an exception
falls through to the next attempt; exhausting the budget raises. -/
def llmLoop (parse : α → β) (headerToken : String) (attempts : Nat → Attempt α) :
    Nat → Nat → List String → Option String → LlmRun β
  | _, 0, sent, acc => ⟨Except.error "Falha na chamada LLM após MAX_RETRIES tentativas", sent, acc⟩
  | i, fuel + 1, sent, acc =>
    match attempts i with
    | .exn => llmLoop parse headerToken attempts (i + 1) fuel (sent ++ [headerToken]) acc
    | .response s payload =>
      if s = 200 then ⟨Except.ok (parse payload), sent ++ [headerToken], acc⟩
      else if s = 401 then
        llmLoop parse headerToken attempts (i + 1) fuel (sent ++ [headerToken]) none
      else llmLoop parse headerToken attempts (i + 1) fuel (sent ++ [headerToken]) acc

/-- serpro_client.py lines 103-192, `call_llm`: the token is obtained
once before the loop, the Authorization header is built once from it,
and the loop runs on that fixed header.  After `get_access_token`
returned `token`, `self.access_token = token`. -/
def call_llm (parse : α → β) (token : String) (attempts : Nat → Attempt α) : LlmRun β :=
  llmLoop parse token attempts 0 MAX_RETRIES [] (some token)

/-! ### serpro_client.py response parsing and fallback -/

/-- Python whitespace characters stripped by str.strip and matched by
the regex class backslash-s (the ASCII core of the Unicode set). -/
def isPyWhitespace (c : Char) : Bool :=
  c == ' ' || c == '\t' || c == '\n' || c == '\r' ||
    c == Char.ofNat 11 || c == Char.ofNat 12

/-- Python str.strip(): drop whitespace from both ends. -/
def pyStrip (s : List Char) : List Char :=
  ((s.dropWhile isPyWhitespace).reverse.dropWhile isPyWhitespace).reverse

/-- Python str.lower restricted to the Latin letters that occur in this
repository: ASCII A-Z and the Latin-1 uppercase range (À..Þ except ×)
map down by 32; every other character is unchanged. -/
def pyLowerChar (c : Char) : Char :=
  if 'A' ≤ c ∧ c ≤ 'Z' then Char.ofNat (c.toNat + 32)
  else if 'À' ≤ c ∧ c ≤ 'Þ' ∧ c ≠ '×' then Char.ofNat (c.toNat + 32)
  else c

/-- Python str.lower on a whole string. -/
def pyLower (s : List Char) : List Char := s.map pyLowerChar

/-- Boolean prefix test on character lists. -/
def isPrefixC : List Char → List Char → Bool
  | [], _ => true
  | _ :: _, [] => false
  | a :: w, b :: s => a == b && isPrefixC w s

/-- Python substring containment `w in s`. -/
def containsSub (w : List Char) : List Char → Bool
  | [] => isPrefixC w []
  | b :: s => isPrefixC w (b :: s) || containsSub w s

/-- serpro_client.py line 237. -/
def approve_words : List String := ["sim", "aprovado", "válido", "autorização"]

/-- serpro_client.py line 238. -/
def reject_words : List String := ["não", "rejeitado", "inválido", "boleto"]

/-- serpro_client.py line 240: number of approve keywords occurring in
the lowercased content. -/
def approveCount (content_lower : List Char) : Nat :=
  approve_words.countP (fun w => containsSub w.data content_lower)

/-- serpro_client.py line 241: number of reject keywords occurring in
the lowercased content. -/
def rejectCount (content_lower : List Char) : Nat :=
  reject_words.countP (fun w => containsSub w.data content_lower)

/-- The dict produced by parse_response / create_fallback. -/
structure LlmParsed where
  diagnosticoLLM : String
  justificativaLLM : List Char
  confidence : ℚ
deriving Repr, DecidableEq

/-- serpro_client.py lines 232-261, `create_fallback(content)` on its
non-exception path: count keywords in the lowercased content; a strict
approve majority gives "SIM", anything else (ties included) gives "NÃO";
confidence is min(0.8, 0.5 + winning_count * 0.1); the justificativa is
content[:100]. -/
def create_fallback (content : List Char) : LlmParsed :=
  if rejectCount (pyLower content) < approveCount (pyLower content) then
    ⟨"SIM", content.take 100, min 0.8 (0.5 + (approveCount (pyLower content) : ℚ) * 0.1)⟩
  else
    ⟨"NÃO", content.take 100, min 0.8 (0.5 + (rejectCount (pyLower content) : ℚ) * 0.1)⟩

/-- The opening-brace character. -/
def braceChar : Char := Char.ofNat 123

/-- serpro_client.py lines 194-230, `parse_response`, with the two
json.loads attempts modelled as oracles: `direct` is the result of
json.loads on the whole content when that parse succeeds (consulted only
when the stripped content starts with an opening brace, line 205), and
`extracted` is the result of json.loads on the first brace-delimited
regex match when the match exists and parses (lines 214-222).  When
neither yields a value, the keyword-counting fallback is returned. -/
def parse_response (direct extracted : Option LlmParsed) (content : List Char) : LlmParsed :=
  if (pyStrip content).head? = some braceChar then
    match direct with
    | some p => p
    | none =>
      match extracted with
      | some p => p
      | none => create_fallback content
  else
    match extracted with
    | some p => p
    | none => create_fallback content

/-! ### AE_semantica_functions.py row filters -/

/-- ASCII letter, the regex class a-zA-Z. -/
def isAsciiLetter (c : Char) : Bool :=
  ('a' ≤ c && c ≤ 'z') || ('A' ≤ c && c ≤ 'Z')

/-- ASCII digit, the regex class 0-9. -/
def isAsciiDigit (c : Char) : Bool := '0' ≤ c && c ≤ '9'

/-- AE_semantica_functions.py lines 105-111, `filtro_ruido(texto)`:
after stripping, a full match of 10 or more letters only, or of 3 or
more characters that are neither alphanumeric nor whitespace. -/
def filtro_ruido (texto : List Char) : Bool :=
  (decide (10 ≤ (pyStrip texto).length) && (pyStrip texto).all isAsciiLetter) ||
  (decide (3 ≤ (pyStrip texto).length) &&
    (pyStrip texto).all (fun c => !(isAsciiLetter c || isAsciiDigit c || isPyWhitespace c)))

/-- Python str.upper restricted to the Latin letters that occur in this
repository (inverse of `pyLowerChar`). -/
def pyUpperChar (c : Char) : Char :=
  if 'a' ≤ c ∧ c ≤ 'z' then Char.ofNat (c.toNat - 32)
  else if 'à' ≤ c ∧ c ≤ 'þ' ∧ c ≠ '÷' then Char.ofNat (c.toNat - 32)
  else c

/-- Python str.upper on a whole string. -/
def pyUpper (s : List Char) : List Char := s.map pyUpperChar

/-- Python str.split() with no argument: words separated by whitespace
runs, empties discarded. -/
def pySplit (s : List Char) : List (List Char) :=
  (s.splitOnP isPyWhitespace).filter (fun w => !w.isEmpty)

/-- AE_semantica_functions.py lines 113-119, `eh_repetitiva(texto)`:
fewer than 4 words is not repetitive; otherwise repetitive iff the
proportion of distinct words is below 0.4. -/
def eh_repetitiva (texto : List Char) : Bool :=
  let palavras := pySplit (pyUpper (pyStrip texto))
  if palavras.length < 4 then false
  else decide ((palavras.dedup.length : ℚ) / palavras.length < 0.4)

/-- The pattern of AE_semantica_functions.py line 141 applied by
`filtrar_por_regex` to the stripped justificativa: the empty string (a
run of whitespace before stripping) or a nonempty run of the characters
@ . - only. -/
def regex_vazia (texto : List Char) : Bool :=
  (pyStrip texto).isEmpty ||
    (pyStrip texto).all (fun c => c == '@' || c == '.' || c == '-')

/-- AE_semantica_functions.py lines 134-138, `filtrar_por_ruido`: the
pair (rows whose justificativa is not noise, rows whose justificativa is
noise).  `just` projects the JUSTIFICATIVA column out of a row. -/
def filtrar_por_ruido {ρ : Type} (just : ρ → List Char) (df : List ρ) : List ρ × List ρ :=
  (df.filter (fun r => !filtro_ruido (just r)), df.filter (fun r => filtro_ruido (just r)))

/-- AE_semantica_functions.py lines 140-145, `filtrar_por_regex`. -/
def filtrar_por_regex {ρ : Type} (just : ρ → List Char) (df : List ρ) : List ρ × List ρ :=
  (df.filter (fun r => !regex_vazia (just r)), df.filter (fun r => regex_vazia (just r)))

/-- AE_semantica_functions.py lines 147-151, `filtrar_por_repeticao`. -/
def filtrar_por_repeticao {ρ : Type} (just : ρ → List Char) (df : List ρ) : List ρ × List ρ :=
  (df.filter (fun r => !eh_repetitiva (just r)), df.filter (fun r => eh_repetitiva (just r)))

/-- The property claimed for each filter: the two returned frames are a
partition of the input rows, selected by the predicate, with no row
modified, duplicated or dropped. -/
def IsPartitionBy {ρ : Type} [DecidableEq ρ] (pair : List ρ × List ρ) (df : List ρ)
    (p : ρ → Bool) : Prop :=
  (pair.1 ++ pair.2).Perm df ∧
  (∀ r, r ∈ pair.1 ↔ r ∈ df ∧ p r = false) ∧
  (∀ r, r ∈ pair.2 ↔ r ∈ df ∧ p r = true) ∧
  (∀ r, List.count r pair.1 + List.count r pair.2 = List.count r df) ∧
  ∀ r, ¬(r ∈ pair.1 ∧ r ∈ pair.2)

/-! ### AE_semantica_functions.py filtrar_por_similaridade -/

/-- AE_semantica_functions.py line 264: the set of ID_BASE values. -/
def ids_base (pairs : List (String × String)) : Finset String :=
  (pairs.map Prod.fst).toFinset

/-- AE_semantica_functions.py line 265: the set of ID_COMPARADA values. -/
def ids_comparada (pairs : List (String × String)) : Finset String :=
  (pairs.map Prod.snd).toFinset

/-- AE_semantica_functions.py line 268: comparadas that are not bases. -/
def ids_repetidos_puros (pairs : List (String × String)) : Finset String :=
  ids_comparada pairs \ ids_base pairs

/-- AE_semantica_functions.py lines 263-298, `filtrar_por_similaridade`:
the assert at lines 271-273 (modelled as the emptiness test of the
intersection, which is Python set.isdisjoint) raises AssertionError when
it fails; otherwise the function returns the kept rows, the duplicate
rows and the filtered ID set.  `idOf` projects the ID TERMO column. -/
def filtrar_por_similaridade {ρ : Type} (idOf : ρ → String) (df : List ρ)
    (pairs : List (String × String)) : Except String (List ρ × List ρ × Finset String) :=
  if ids_repetidos_puros pairs ∩ ids_base pairs = ∅ then
    let filtrados := ids_repetidos_puros pairs ∩ (df.map idOf).toFinset
    Except.ok
      (df.filter (fun r => !decide (idOf r ∈ filtrados)),
       df.filter (fun r => decide (idOf r ∈ filtrados)),
       filtrados)
  else Except.error "Inconsistência: um mesmo ID TERMO está como original e duplicado."

/-! ### AE_semantica_functions.py detectar_similares_consecutivos_tfidf -/

/-- Line 178: rows with null JUSTIFICATIVA are dropped (and the index
reset) before any comparison.  A row is the pair (JUSTIFICATIVA cell or
None, ID TERMO cell). -/
def dropNaJustificativa (rows : List (Option String × String)) : List (String × String) :=
  rows.filterMap (fun r => match r.1 with | some j => some (j, r.2) | none => none)

/-- The double loop of lines 185-198: record every ordered index pair
(i, j) with i ≠ j, j in range(max(0, i - janela), min(n, i + janela + 1))
and cosine similarity at least limiar.  `sim i j` is the TF-IDF cosine
similarity of filtered rows i and j, an oracle for the sklearn call. -/
def windowPairs (sim : Nat → Nat → ℚ) (n janela : Nat) (limiar : ℚ) : List (Nat × Nat) :=
  (List.range n).flatMap (fun i =>
    (List.range' (i - janela) (min n (i + janela + 1) - (i - janela)) 1).filterMap (fun j =>
      if i ≠ j ∧ limiar ≤ sim i j then some (i, j) else none))

/-- AE_semantica_functions.py lines 174-198: raise ValueError when the
JUSTIFICATIVA or ID TERMO column is absent, otherwise run the window
scan on the rows whose JUSTIFICATIVA is not null. -/
def detectar_similares_consecutivos_tfidf (cols : List String)
    (rows : List (Option String × String)) (sim : Nat → Nat → ℚ)
    (janela : Nat) (limiar : ℚ) : Except String (List (Nat × Nat)) :=
  if "JUSTIFICATIVA" ∈ cols ∧ "ID TERMO" ∈ cols then
    Except.ok (windowPairs sim (dropNaJustificativa rows).length janela limiar)
  else Except.error "Colunas obrigatórias JUSTIFICATIVA e ID TERMO não estão presentes."

/-! ### scripts/2_PDFs/1_encontra_duplicados.py -/

/-- A scanned file: full path, its name split into pathlib Path.stem and
Path.suffix (name = stem ++ ext), and its SHA-256 content hash.  The
hash is an oracle attribute of the file (calcular_sha256 wraps the
hashlib library); the script only compares hashes for equality. -/
structure SFile where
  path : List Char
  stem : List Char
  ext : List Char
  hash : String
deriving Repr, DecidableEq

/-- One step of the dict build of mapear_por_hash (line 43,
`mapeamento.setdefault(h, []).append(arquivo)`): append the file to the
group of its hash, or open a new group at the end, preserving insertion
order. -/
def insertGroup : List (String × List SFile) → SFile → List (String × List SFile)
  | [], f => [(f.hash, [f])]
  | (h, g) :: rest, f =>
    if h = f.hash then (h, g ++ [f]) :: rest else (h, g) :: insertGroup rest f

/-- mapear_por_hash (lines 28-59): group the scanned files by their
SHA-256 hash. -/
def mapear_por_hash (files : List SFile) : List (String × List SFile) :=
  files.foldl insertGroup []

/-- Decimal digit character. -/
def digitChar (d : Nat) : Char := Char.ofNat (48 + d)

/-- Decimal representation of a natural number: the model of Python
str(int) as used in the collision f-string of mover_arquivos. -/
def decimalRepr (n : Nat) : List Char :=
  if _h : n < 10 then [digitChar n]
  else decimalRepr (n / 10) ++ [digitChar (n % 10)]
decreasing_by exact Nat.div_lt_self (by omega) (by omega)

/-- Value of a decimal digit string (left inverse of decimalRepr). -/
def decimalVal (s : List Char) : Nat :=
  s.foldl (fun acc c => 10 * acc + (c.toNat - 48)) 0

/-- The destination-name candidates tried by the collision loop of
mover_arquivos (lines 73-77 and 86-90): first the original name
stem ++ ext, then stem_1 ++ ext, stem_2 ++ ext, and so on. -/
def candName (stem ext : List Char) : Nat → List Char
  | 0 => stem ++ ext
  | k + 1 => stem ++ '_' :: (decimalRepr (k + 1) ++ ext)

/-- The while-loop of the collision resolution: try candidates from
number `k` on, returning the first whose name is not taken.  The fuel
`names.length` always suffices (`freshName_not_mem`), so this equals the
unbounded Python loop. -/
def freshFrom (names : List (List Char)) (stem ext : List Char) : Nat → Nat → List Char
  | k, 0 => candName stem ext k
  | k, fuel + 1 =>
    if candName stem ext k ∈ names then freshFrom names stem ext (k + 1) fuel
    else candName stem ext k

/-- The destination name chosen for a file with the given stem and
extension when `names` are already present in the target directory. -/
def freshName (names : List (List Char)) (stem ext : List Char) : List Char :=
  freshFrom names stem ext 0 names.length

/-- Lexicographic comparison of paths by character code: the model of
sorted() over pathlib paths (line 70). -/
def lexLe : List Char → List Char → Bool
  | [], _ => true
  | _ :: _, [] => false
  | a :: as, b :: bs =>
    if a.toNat < b.toNat then true
    else if b.toNat < a.toNat then false
    else lexLe as bs

/-- Path order on scanned files. -/
def pathLe (f g : SFile) : Bool := lexLe f.path g.path

/-- State of the moving pass: the names currently present in UNIQUE and
in REPETITION, and the moves performed so far, each recorded as
(source file, moved-to-UNIQUE flag, destination name). -/
structure MoveState where
  uniqueNames : List (List Char)
  repNames : List (List Char)
  moves : List (SFile × Bool × List Char)
deriving Repr, DecidableEq

/-- Move one file into UNIQUE (flag true, lines 72-82) or REPETITION
(flag false, lines 85-93): resolve the destination name against the
directory contents, then move (the destination becomes occupied). -/
def moveOne (toUnique : Bool) (st : MoveState) (f : SFile) : MoveState :=
  if toUnique then
    ⟨st.uniqueNames ++ [freshName st.uniqueNames f.stem f.ext], st.repNames,
      st.moves ++ [(f, true, freshName st.uniqueNames f.stem f.ext)]⟩
  else
    ⟨st.uniqueNames, st.repNames ++ [freshName st.repNames f.stem f.ext],
      st.moves ++ [(f, false, freshName st.repNames f.stem f.ext)]⟩

/-- Process one hash group (lines 69-93): sort the group by path, move
the first file to UNIQUE and the remaining ones to REPETITION. -/
def moveGroup (st : MoveState) (g : List SFile) : MoveState :=
  match g.mergeSort pathLe with
  | [] => st
  | orig :: rest => rest.foldl (moveOne false) (moveOne true st orig)

/-- mover_arquivos (lines 61-109) over the whole mapping, starting from
the initial contents u0 and r0 of the two destination directories. -/
def mover_arquivos (u0 r0 : List (List Char)) (mapeamento : List (String × List SFile)) :
    MoveState :=
  mapeamento.foldl (fun st p => moveGroup st p.2) ⟨u0, r0, []⟩

/-- Source file and direction of each move of one group, in order. -/
def groupMoves (g : List SFile) : List (SFile × Bool) :=
  match g.mergeSort pathLe with
  | [] => []
  | orig :: rest => (orig, true) :: rest.map (fun f => (f, false))

/-- Destination names of the moves into UNIQUE, in order. -/
def uniqueDests (moves : List (SFile × Bool × List Char)) : List (List Char) :=
  (moves.filter (fun m => m.2.1)).map (fun m => m.2.2)

/-- Destination names of the moves into REPETITION, in order. -/
def repDests (moves : List (SFile × Bool × List Char)) : List (List Char) :=
  (moves.filter (fun m => !m.2.1)).map (fun m => m.2.2)

/-- Soundness invariant of the moving pass: the directory contents are
the initial ones plus the recorded destinations, no destination ever
collided with an earlier name (nothing is overwritten), and every
destination is one of the numeric-suffix candidates of its source. -/
def MovesOk (u0 r0 : List (List Char)) (st : MoveState) : Prop :=
  st.uniqueNames = u0 ++ uniqueDests st.moves ∧
  st.repNames = r0 ++ repDests st.moves ∧
  (uniqueDests st.moves).Nodup ∧
  (∀ d ∈ uniqueDests st.moves, d ∉ u0) ∧
  (repDests st.moves).Nodup ∧
  (∀ d ∈ repDests st.moves, d ∉ r0) ∧
  ∀ mv ∈ st.moves, ∃ k, mv.2.2 = candName mv.1.stem mv.1.ext k

end Semantica

namespace Semantica

/-! ## Theorems -/

/-- C1: `classify_result` buckets a (diagnostico, confidence) pair into
exactly one of APPROVED / REVIEW_REQUIRED / REJECTED by the fixed
thresholds: APPROVED iff diagnostico = "SIM" and confidence ≥ 0.7,
REVIEW_REQUIRED iff diagnostico = "SIM" and 0.5 ≤ confidence < 0.7,
REJECTED in every other case; in particular any diagnostico other than
"SIM" yields REJECTED at every confidence. -/
theorem classify_result_buckets (d : String) (c : ℚ) :
    (classify_result d c = "APPROVED" ↔ d = "SIM" ∧ CONFIDENCE_HIGH ≤ c) ∧
    (classify_result d c = "REVIEW_REQUIRED" ↔
      d = "SIM" ∧ CONFIDENCE_MEDIUM ≤ c ∧ c < CONFIDENCE_HIGH) ∧
    (classify_result d c = "REJECTED" ↔ ¬(d = "SIM" ∧ CONFIDENCE_MEDIUM ≤ c)) ∧
    (d ≠ "SIM" → classify_result d c = "REJECTED") := by
  unfold classify_result
  have hs : CONFIDENCE_MEDIUM < CONFIDENCE_HIGH := by
    unfold CONFIDENCE_MEDIUM CONFIDENCE_HIGH; norm_num
  split_ifs with h1 h2
  · refine ⟨by simp [h1], ?_, ?_, ?_⟩
    · constructor
      · intro h; exact absurd h (by decide)
      · rintro ⟨-, -, hlt⟩; exact absurd h1.2 (not_le.mpr hlt)
    · constructor
      · intro h; exact absurd h (by decide)
      · intro h; exact absurd ⟨h1.1, le_trans hs.le h1.2⟩ h
    · intro hne; exact absurd h1.1 hne
  · refine ⟨?_, by simp [h2, not_le.mp (fun hc => h1 ⟨h2.1, hc⟩)], ?_, ?_⟩
    · constructor
      · intro h; exact absurd h (by decide)
      · intro h; exact absurd h h1
    · constructor
      · intro h; exact absurd h (by decide)
      · intro h; exact absurd ⟨h2.1, h2.2⟩ h
    · intro hne; exact absurd h2.1 hne
  · refine ⟨?_, ?_, by simp [h2], fun _ => rfl⟩
    · constructor
      · intro h; exact absurd h (by decide)
      · intro h; exact absurd ⟨h.1, le_trans hs.le h.2⟩ h2
    · constructor
      · intro h; exact absurd h (by decide)
      · rintro ⟨hd, hm, -⟩; exact absurd ⟨hd, hm⟩ h2

/-- Witness for C1 at a concrete input: a non-"SIM" diagnostico is
REJECTED even at confidence 1. -/
theorem classify_result_buckets_witness :
    "NÃO" ≠ "SIM" ∧ classify_result "NÃO" 1 = "REJECTED" :=
  ⟨by decide, (classify_result_buckets "NÃO" 1).2.2.2 (by decide)⟩

/-- C2 (counterexample): the three successive delays computed by the
serpro_client.py retry formula are 1, 2, 3 seconds — not a geometric
progression, so the delay is not multiplied by a fixed backoff factor
between retries. -/
theorem retryDelay_not_geometric :
    ¬ retryDelay 0 * retryDelay 2 = retryDelay 1 * retryDelay 1 := by
  unfold retryDelay RETRY_DELAY; norm_num

/-- C2 (amended): the delay before the next attempt after failed attempt
`k` is `RETRY_DELAY * (k + 1)`: it grows linearly, with the constant
increment `RETRY_DELAY` from one retry to the next, and is a
deterministic function of the attempt number (no jitter). -/
theorem retryDelay_linear (k : Nat) :
    retryDelay (k + 1) - retryDelay k = RETRY_DELAY ∧
    retryDelay k = RETRY_DELAY * (k + 1) := by
  constructor
  · unfold retryDelay; push_cast; ring
  · rfl

/-- Index shift for bounded existentials, used to step the retry loops. -/
theorem exists_lt_shift (P : Nat → Prop) (i fuel : Nat) (h0 : ¬ P i) :
    (∃ k, k < fuel ∧ P (i + 1 + k)) ↔ ∃ k, k < fuel + 1 ∧ P (i + k) := by
  constructor
  · rintro ⟨k, hk, hP⟩
    exact ⟨k + 1, by omega, by rwa [show i + (k + 1) = i + 1 + k by omega]⟩
  · rintro ⟨k, hk, hP⟩
    match k with
    | 0 => exact absurd hP h0
    | k + 1 => exact ⟨k, by omega, by rwa [show i + 1 + k = i + (k + 1) by omega]⟩

/-- Unfolding of the token retry loop when the attempt raises. -/
theorem tokenRetryLoop_exn (ta : Nat → Attempt TokenData) (i fuel : Nat)
    (h : ta i = .exn) :
    tokenRetryLoop ta i (fuel + 1) = tokenRetryLoop ta (i + 1) fuel := by
  rw [tokenRetryLoop, h]

/-- Unfolding of the token retry loop when the attempt gets a response. -/
theorem tokenRetryLoop_response (ta : Nat → Attempt TokenData) (i fuel : Nat)
    (s : Nat) (td : TokenData) (h : ta i = .response s td) :
    tokenRetryLoop ta i (fuel + 1) =
      if s = 200 then Except.ok td.access_token else tokenRetryLoop ta (i + 1) fuel := by
  rw [tokenRetryLoop, h]

/-- The token retry loop succeeds iff some attempt within its budget has
HTTP status 200. -/
theorem tokenRetryLoop_isOk (ta : Nat → Attempt TokenData) :
    ∀ fuel i, (tokenRetryLoop ta i fuel).isOk = true ↔
      ∃ k, k < fuel ∧ (ta (i + k)).is200 = true := by
  intro fuel
  induction fuel with
  | zero => intro i; simp [tokenRetryLoop, Except.isOk, Except.toBool]
  | succ fuel ih =>
    intro i
    cases h : ta i with
    | exn =>
      rw [tokenRetryLoop_exn ta i fuel h, ih (i + 1)]
      exact exists_lt_shift (fun n => (ta n).is200 = true) i fuel
        (by simp [h, Attempt.is200])
    | response s td =>
      rw [tokenRetryLoop_response ta i fuel s td h]
      by_cases hs : s = 200
      · subst hs
        simp only [if_pos rfl, Except.isOk, Except.toBool]
        constructor
        · intro _; exact ⟨0, by omega, by simp [h, Attempt.is200]⟩
        · intro _; rfl
      · rw [if_neg hs, ih (i + 1)]
        exact exists_lt_shift (fun n => (ta n).is200 = true) i fuel
          (by simp [h, Attempt.is200, hs])

/-- The token retry loop returns the access token of the first attempt
with status 200. -/
theorem tokenRetryLoop_first (ta : Nat → Attempt TokenData) :
    ∀ fuel i k, k < fuel → ∀ td, ta (i + k) = .response 200 td →
      (∀ j, j < k → (ta (i + j)).is200 = false) →
      tokenRetryLoop ta i fuel = .ok td.access_token := by
  intro fuel
  induction fuel with
  | zero => intro i k hk; omega
  | succ fuel ih =>
    intro i k hk td hta hbefore
    match k with
    | 0 =>
      rw [show i + 0 = i by omega] at hta
      rw [tokenRetryLoop_response ta i fuel 200 td hta, if_pos rfl]
    | k + 1 =>
      have h0 : (ta i).is200 = false := by
        have := hbefore 0 (by omega)
        rwa [show i + 0 = i by omega] at this
      have harg : ta (i + 1 + k) = .response 200 td := by
        rwa [show i + 1 + k = i + (k + 1) by omega]
      have hbef : ∀ j, j < k → (ta (i + 1 + j)).is200 = false := fun j hj => by
        rw [show i + 1 + j = i + (j + 1) by omega]
        exact hbefore (j + 1) (by omega)
      cases h : ta i with
      | exn =>
        rw [tokenRetryLoop_exn ta i fuel h]
        exact ih (i + 1) k (by omega) td harg hbef
      | response s td2 =>
        have hs : s ≠ 200 := by
          rw [h] at h0; simpa [Attempt.is200] using h0
        rw [tokenRetryLoop_response ta i fuel s td2 h, if_neg hs]
        exact ih (i + 1) k (by omega) td harg hbef

/-- The token retry loop inspects only the attempts inside its budget. -/
theorem tokenRetryLoop_frame :
    ∀ fuel i (ta ta2 : Nat → Attempt TokenData),
      (∀ k, k < fuel → ta (i + k) = ta2 (i + k)) →
      tokenRetryLoop ta i fuel = tokenRetryLoop ta2 i fuel := by
  intro fuel
  induction fuel with
  | zero => intro i ta ta2 _; rfl
  | succ fuel ih =>
    intro i ta ta2 hagree
    have h0 : ta2 i = ta i := by
      have := hagree 0 (by omega)
      rw [show i + 0 = i by omega] at this
      exact this.symm
    have hrest : tokenRetryLoop ta (i + 1) fuel = tokenRetryLoop ta2 (i + 1) fuel :=
      ih (i + 1) ta ta2 (fun k hk => by
        rw [show i + 1 + k = i + (k + 1) by omega]
        exact hagree (k + 1) (by omega))
    cases h : ta i with
    | exn =>
      rw [tokenRetryLoop_exn ta i fuel h, tokenRetryLoop_exn ta2 i fuel (h ▸ h0), hrest]
    | response s td =>
      rw [tokenRetryLoop_response ta i fuel s td h,
        tokenRetryLoop_response ta2 i fuel s td (h ▸ h0), hrest]

/-- When the cached token is not valid, `get_access_token` is the retry
loop with a budget of `MAX_RETRIES` attempts starting at attempt 0. -/
theorem get_access_token_eq_loop (tok : Option String) (exp : Option ℚ) (now : ℚ)
    (ta : Nat → Attempt TokenData) (hcache : cachedTokenValid tok exp now = false) :
    get_access_token tok exp now ta = tokenRetryLoop ta 0 MAX_RETRIES := by
  rcases tok with - | t <;> rcases exp with - | e
  · rfl
  · rfl
  · rfl
  · have h : ¬ now < e := by simpa [cachedTokenValid] using hcache
    show (if now < e then Except.ok t else tokenRetryLoop ta 0 MAX_RETRIES) = _
    rw [if_neg h]

/-- Unfolding of the `call_llm` loop when the attempt raises. -/
theorem llmLoop_exn {α β : Type} (parse : α → β) (tok : String) (la : Nat → Attempt α)
    (i fuel : Nat) (sent : List String) (acc : Option String) (h : la i = .exn) :
    llmLoop parse tok la i (fuel + 1) sent acc =
      llmLoop parse tok la (i + 1) fuel (sent ++ [tok]) acc := by
  rw [llmLoop, h]

/-- Unfolding of the `call_llm` loop when the attempt gets a response. -/
theorem llmLoop_response {α β : Type} (parse : α → β) (tok : String)
    (la : Nat → Attempt α) (i fuel : Nat) (sent : List String) (acc : Option String)
    (s : Nat) (p : α) (h : la i = .response s p) :
    llmLoop parse tok la i (fuel + 1) sent acc =
      if s = 200 then ⟨Except.ok (parse p), sent ++ [tok], acc⟩
      else if s = 401 then llmLoop parse tok la (i + 1) fuel (sent ++ [tok]) none
      else llmLoop parse tok la (i + 1) fuel (sent ++ [tok]) acc := by
  rw [llmLoop, h]

/-- Every performed `call_llm` attempt appends exactly the fixed header
token to the sent list, and the loop performs at most `fuel` attempts. -/
theorem llmLoop_sent {α β : Type} (parse : α → β) (tok : String) (la : Nat → Attempt α) :
    ∀ fuel i sent acc, ∃ m, m ≤ fuel ∧
      (llmLoop parse tok la i fuel sent acc).sentTokens = sent ++ List.replicate m tok := by
  intro fuel
  induction fuel with
  | zero => intro i sent acc; exact ⟨0, by omega, by simp [llmLoop]⟩
  | succ fuel ih =>
    intro i sent acc
    have hstep : ∀ m, sent ++ [tok] ++ List.replicate m tok =
        sent ++ List.replicate (m + 1) tok := by
      intro m
      simp [List.replicate_succ, List.append_assoc]
    cases h : la i with
    | exn =>
      obtain ⟨m, hm, hsent⟩ := ih (i + 1) (sent ++ [tok]) acc
      exact ⟨m + 1, by omega, by rw [llmLoop_exn parse tok la i fuel sent acc h, hsent, hstep]⟩
    | response s p =>
      rw [llmLoop_response parse tok la i fuel sent acc s p h]
      by_cases hs : s = 200
      · refine ⟨1, by omega, ?_⟩
        rw [if_pos hs]
        simp
      · by_cases h4 : s = 401
        · obtain ⟨m, hm, hsent⟩ := ih (i + 1) (sent ++ [tok]) none
          refine ⟨m + 1, by omega, ?_⟩
          rw [if_neg hs, if_pos h4, hsent, hstep]
        · obtain ⟨m, hm, hsent⟩ := ih (i + 1) (sent ++ [tok]) acc
          refine ⟨m + 1, by omega, ?_⟩
          rw [if_neg hs, if_neg h4, hsent, hstep]

/-- The `call_llm` loop succeeds iff some attempt within its budget has
HTTP status 200. -/
theorem llmLoop_isOk {α β : Type} (parse : α → β) (tok : String) (la : Nat → Attempt α) :
    ∀ fuel i sent acc, (llmLoop parse tok la i fuel sent acc).value.isOk = true ↔
      ∃ k, k < fuel ∧ (la (i + k)).is200 = true := by
  intro fuel
  induction fuel with
  | zero => intro i sent acc; simp [llmLoop, Except.isOk, Except.toBool]
  | succ fuel ih =>
    intro i sent acc
    cases h : la i with
    | exn =>
      rw [llmLoop_exn parse tok la i fuel sent acc h, ih (i + 1) (sent ++ [tok]) acc]
      exact exists_lt_shift (fun n => (la n).is200 = true) i fuel
        (by simp [h, Attempt.is200])
    | response s p =>
      rw [llmLoop_response parse tok la i fuel sent acc s p h]
      by_cases hs : s = 200
      · subst hs
        simp only [if_pos rfl, Except.isOk, Except.toBool]
        constructor
        · intro _; exact ⟨0, by omega, by simp [h, Attempt.is200]⟩
        · intro _; rfl
      · by_cases h4 : s = 401
        · rw [if_neg hs, if_pos h4, ih (i + 1) (sent ++ [tok]) none]
          exact exists_lt_shift (fun n => (la n).is200 = true) i fuel
            (by simp [h, Attempt.is200, hs])
        · rw [if_neg hs, if_neg h4, ih (i + 1) (sent ++ [tok]) acc]
          exact exists_lt_shift (fun n => (la n).is200 = true) i fuel
            (by simp [h, Attempt.is200, hs])

/-- The `call_llm` loop returns the parsed payload of the first attempt
with status 200. -/
theorem llmLoop_first {α β : Type} (parse : α → β) (tok : String) (la : Nat → Attempt α) :
    ∀ fuel i sent acc k, k < fuel → ∀ p, la (i + k) = .response 200 p →
      (∀ j, j < k → (la (i + j)).is200 = false) →
      (llmLoop parse tok la i fuel sent acc).value = .ok (parse p) := by
  intro fuel
  induction fuel with
  | zero => intro i sent acc k hk; omega
  | succ fuel ih =>
    intro i sent acc k hk p hla hbefore
    match k with
    | 0 =>
      rw [show i + 0 = i by omega] at hla
      rw [llmLoop_response parse tok la i fuel sent acc 200 p hla, if_pos rfl]
    | k + 1 =>
      have h0 : (la i).is200 = false := by
        have := hbefore 0 (by omega)
        rwa [show i + 0 = i by omega] at this
      have harg : la (i + 1 + k) = .response 200 p := by
        rwa [show i + 1 + k = i + (k + 1) by omega]
      have hbef : ∀ j, j < k → (la (i + 1 + j)).is200 = false := fun j hj => by
        rw [show i + 1 + j = i + (j + 1) by omega]
        exact hbefore (j + 1) (by omega)
      cases h : la i with
      | exn =>
        rw [llmLoop_exn parse tok la i fuel sent acc h]
        exact ih (i + 1) (sent ++ [tok]) acc k (by omega) p harg hbef
      | response s p2 =>
        have hs : s ≠ 200 := by
          rw [h] at h0; simpa [Attempt.is200] using h0
        rw [llmLoop_response parse tok la i fuel sent acc s p2 h, if_neg hs]
        by_cases h4 : s = 401
        · rw [if_pos h4]
          exact ih (i + 1) (sent ++ [tok]) none k (by omega) p harg hbef
        · rw [if_neg h4]
          exact ih (i + 1) (sent ++ [tok]) acc k (by omega) p harg hbef

/-- Once `self.access_token` has been cleared, nothing in the `call_llm`
loop restores it. -/
theorem llmLoop_none_absorbing {α β : Type} (parse : α → β) (tok : String)
    (la : Nat → Attempt α) :
    ∀ fuel i sent, (llmLoop parse tok la i fuel sent none).finalAccessToken = none := by
  intro fuel
  induction fuel with
  | zero => intro i sent; rfl
  | succ fuel ih =>
    intro i sent
    cases h : la i with
    | exn =>
      rw [llmLoop_exn parse tok la i fuel sent none h]
      exact ih (i + 1) (sent ++ [tok])
    | response s p =>
      rw [llmLoop_response parse tok la i fuel sent none s p h]
      by_cases hs : s = 200
      · rw [if_pos hs]
      · by_cases h4 : s = 401
        · rw [if_neg hs, if_pos h4]; exact ih (i + 1) (sent ++ [tok])
        · rw [if_neg hs, if_neg h4]; exact ih (i + 1) (sent ++ [tok])

/-- A 401 response that is actually reached (no earlier 200) clears the
cached access token for the rest of the run. -/
theorem llmLoop_401_clears {α β : Type} (parse : α → β) (tok : String)
    (la : Nat → Attempt α) :
    ∀ fuel i sent acc k, k < fuel → ∀ p, la (i + k) = .response 401 p →
      (∀ j, j < k → (la (i + j)).is200 = false) →
      (llmLoop parse tok la i fuel sent acc).finalAccessToken = none := by
  intro fuel
  induction fuel with
  | zero => intro i sent acc k hk; omega
  | succ fuel ih =>
    intro i sent acc k hk p hla hbefore
    match k with
    | 0 =>
      rw [show i + 0 = i by omega] at hla
      rw [llmLoop_response parse tok la i fuel sent acc 401 p hla,
        if_neg (by omega : (401 : Nat) ≠ 200), if_pos rfl]
      exact llmLoop_none_absorbing parse tok la fuel (i + 1) (sent ++ [tok])
    | k + 1 =>
      have h0 : (la i).is200 = false := by
        have := hbefore 0 (by omega)
        rwa [show i + 0 = i by omega] at this
      have harg : la (i + 1 + k) = .response 401 p := by
        rwa [show i + 1 + k = i + (k + 1) by omega]
      have hbef : ∀ j, j < k → (la (i + 1 + j)).is200 = false := fun j hj => by
        rw [show i + 1 + j = i + (j + 1) by omega]
        exact hbefore (j + 1) (by omega)
      cases h : la i with
      | exn =>
        rw [llmLoop_exn parse tok la i fuel sent acc h]
        exact ih (i + 1) (sent ++ [tok]) acc k (by omega) p harg hbef
      | response s p2 =>
        have hs : s ≠ 200 := by
          rw [h] at h0; simpa [Attempt.is200] using h0
        rw [llmLoop_response parse tok la i fuel sent acc s p2 h, if_neg hs]
        by_cases h4 : s = 401
        · rw [if_pos h4]
          exact llmLoop_none_absorbing parse tok la fuel (i + 1) (sent ++ [tok])
        · rw [if_neg h4]
          exact ih (i + 1) (sent ++ [tok]) acc k (by omega) p harg hbef

/-- C3: with an invalid cache, both `get_access_token` and `call_llm`
perform at most `MAX_RETRIES` (3) attempts; they return on the first
attempt with HTTP status 200 (the access token, resp. the parsed
response) and raise iff none of the `MAX_RETRIES` attempts has status
200, returning no value on the failure path. -/
theorem retry_first_success_iff {α β : Type} (parse : α → β) (token : String)
    (tok : Option String) (exp : Option ℚ) (now : ℚ)
    (ta : Nat → Attempt TokenData) (la : Nat → Attempt α)
    (hcache : cachedTokenValid tok exp now = false) :
    ((call_llm parse token la).sentTokens.length ≤ MAX_RETRIES) ∧
    (∀ ta2 : Nat → Attempt TokenData, (∀ k, k < MAX_RETRIES → ta k = ta2 k) →
      get_access_token tok exp now ta = get_access_token tok exp now ta2) ∧
    ((get_access_token tok exp now ta).isOk = true ↔
      ∃ k, k < MAX_RETRIES ∧ (ta k).is200 = true) ∧
    ((call_llm parse token la).value.isOk = true ↔
      ∃ k, k < MAX_RETRIES ∧ (la k).is200 = true) ∧
    (∀ k, k < MAX_RETRIES → ∀ td, ta k = .response 200 td →
      (∀ j, j < k → (ta j).is200 = false) →
      get_access_token tok exp now ta = .ok td.access_token) ∧
    (∀ k, k < MAX_RETRIES → ∀ p, la k = .response 200 p →
      (∀ j, j < k → (la j).is200 = false) →
      (call_llm parse token la).value = .ok (parse p)) := by
  refine ⟨?_, ?_, ?_, ?_, ?_, ?_⟩
  · obtain ⟨m, hm, hsent⟩ := llmLoop_sent parse token la MAX_RETRIES 0 [] (some token)
    rw [call_llm, hsent]
    simpa using hm
  · intro ta2 hagree
    rw [get_access_token_eq_loop tok exp now ta hcache,
      get_access_token_eq_loop tok exp now ta2 hcache]
    exact tokenRetryLoop_frame MAX_RETRIES 0 ta ta2 (fun k hk => by
      simpa using hagree k hk)
  · rw [get_access_token_eq_loop tok exp now ta hcache, tokenRetryLoop_isOk]
    simp
  · rw [call_llm, llmLoop_isOk]
    simp
  · intro k hk td hta hbefore
    rw [get_access_token_eq_loop tok exp now ta hcache]
    exact tokenRetryLoop_first ta MAX_RETRIES 0 k hk td (by simpa using hta)
      (fun j hj => by simpa using hbefore j hj)
  · intro k hk p hla hbefore
    rw [call_llm]
    exact llmLoop_first parse token la MAX_RETRIES 0 [] (some token) k hk p
      (by simpa using hla) (fun j hj => by simpa using hbefore j hj)

/-- Witness for C3 at a concrete input: with no cached token and a first
attempt answering 200, `get_access_token` returns that token, and a
`call_llm` run whose second attempt answers 200 returns its parsed
payload. -/
theorem retry_first_success_iff_witness :
    cachedTokenValid none none 0 = false ∧
    get_access_token none none 0 (fun _ => .response 200 ⟨"tok1", 3600⟩) =
      .ok "tok1" ∧
    (call_llm (fun n => n + 1) "T"
      (fun k => if k = 0 then (.exn : Attempt Nat) else .response 200 41)).value =
      .ok 42 := by
  have hc : cachedTokenValid none none 0 = false := rfl
  refine ⟨hc, ?_, ?_⟩
  · exact (retry_first_success_iff (fun n : Nat => n + 1) "T" none none 0
      (fun _ => .response 200 ⟨"tok1", 3600⟩)
      (fun k => if k = 0 then (.exn : Attempt Nat) else .response 200 41) hc).2.2.2.2.1
      0 (by decide) ⟨"tok1", 3600⟩ rfl (fun j hj => absurd hj (by omega))
  · exact (retry_first_success_iff (fun n : Nat => n + 1) "T" none none 0
      (fun _ => .response 200 ⟨"tok1", 3600⟩)
      (fun k => if k = 0 then (.exn : Attempt Nat) else .response 200 41) hc).2.2.2.2.2
      1 (by decide) 41 (by decide) (fun j hj => by
        interval_cases j
        decide)

/-- C8: the Authorization header of `call_llm` is built once before the
retry loop, so every attempt of the same invocation is sent with the
original Bearer token, even after a 401 has cleared the cached
`access_token` (which stays cleared when no later 200 resets the run). -/
theorem call_llm_stale_header {α β : Type} (parse : α → β) (token : String)
    (la : Nat → Attempt α) :
    (∀ t ∈ (call_llm parse token la).sentTokens, t = token) ∧
    (∀ k, k < MAX_RETRIES → ∀ p, la k = .response 401 p →
      (∀ j, j < k → (la j).is200 = false) →
      (call_llm parse token la).finalAccessToken = none) := by
  constructor
  · obtain ⟨m, hm, hsent⟩ := llmLoop_sent parse token la MAX_RETRIES 0 [] (some token)
    rw [call_llm, hsent]
    intro t ht
    simpa using List.eq_of_mem_replicate (by simpa using ht)
  · intro k hk p hla hbefore
    rw [call_llm]
    exact llmLoop_401_clears parse token la MAX_RETRIES 0 [] (some token) k hk p
      (by simpa using hla) (fun j hj => by simpa using hbefore j hj)

/-- Witness for C8 at a concrete input: a run whose first attempt is a
401 and whose second succeeds still sends the original token twice, and
ends with the cached token cleared. -/
theorem call_llm_stale_header_witness :
    (call_llm (fun n : Nat => n) "T"
      (fun k => if k = 0 then Attempt.response 401 7 else .response 200 9)).sentTokens =
      ["T", "T"] ∧
    (call_llm (fun n : Nat => n)  "T"
      (fun k => if k = 0 then Attempt.response 401 7 else .response 200 9)).finalAccessToken =
      none := by
  refine ⟨by decide, ?_⟩
  exact (call_llm_stale_header (fun n : Nat => n) "T"
    (fun k => if k = 0 then Attempt.response 401 7 else .response 200 9)).2
    0 (by decide) 7 rfl (fun j hj => absurd hj (by omega))

/-- C9: for inputs whose first three fields contain no `#`,
`parse_line` inverts `to_internal_format`, recovering all four fields
(the justificativa intact even when it contains `#`); and `parse_line`
raises ValueError exactly when the line splits into fewer than four
`#`-separated parts. -/
theorem parse_line_roundtrip (x : SemanticaInput)
    (h1 : '#' ∉ x.id_termo) (h2 : '#' ∉ x.cpf) (h3 : '#' ∉ x.pratica_vedada) :
    parse_line x.to_internal_format =
      Except.ok ⟨x.id_termo, x.cpf, x.pratica_vedada, x.justificativa⟩ ∧
    ∀ line : List Char, (parse_line line).isOk = false ↔
      (line.splitOn '#').length < 4 := by
  constructor
  · have hbeq : ∀ (l : List Char), '#' ∉ l → ∀ c ∈ l, ¬ (c == '#') = true := by
      intro l hl c hc hbe
      rw [beq_iff_eq] at hbe
      exact hl (hbe ▸ hc)
    have hform : x.to_internal_format =
        x.id_termo ++ '#' ::
          (x.cpf ++ '#' :: (x.pratica_vedada ++ '#' :: x.justificativa)) := by
      simp [SemanticaInput.to_internal_format, List.append_assoc]
    have hsplit : x.to_internal_format.splitOn '#' =
        x.id_termo :: x.cpf :: x.pratica_vedada :: x.justificativa.splitOn '#' := by
      rw [hform]
      simp only [List.splitOn]
      rw [List.splitOnP_first _ x.id_termo (hbeq _ h1) '#' (by simp),
        List.splitOnP_first _ x.cpf (hbeq _ h2) '#' (by simp),
        List.splitOnP_first _ x.pratica_vedada (hbeq _ h3) '#' (by simp)]
    rw [parse_line, hsplit]
    rcases hq : x.justificativa.splitOn '#' with - | ⟨q, qs⟩
    · exact absurd hq (List.splitOnP_ne_nil _ _)
    · have hjoin : List.intercalate ['#'] (q :: qs) = x.justificativa := by
        rw [← hq]
        exact List.intercalate_splitOn x.justificativa '#'
      simp [hjoin]
  · intro line
    rw [parse_line]
    rcases h : line.splitOn '#' with - | ⟨a, - | ⟨b, - | ⟨c, - | ⟨d, rest⟩⟩⟩⟩ <;>
      simp [Except.isOk, Except.toBool]

/-- C4: when neither json.loads attempt yields a value, parse_response
returns the keyword-counting fallback, whose diagnosticoLLM is "SIM" iff
the approve-keyword count strictly exceeds the reject-keyword count
(ties give "NÃO"), whose confidence is min(0.8, 0.5 + 0.1 * winning
count) and therefore lies in the interval from 0.5 to 0.8, and whose
justificativaLLM is the first 100 characters of the content. -/
theorem parse_response_fallback (direct extracted : Option LlmParsed) (content : List Char)
    (hd : direct = none) (he : extracted = none) :
    parse_response direct extracted content = create_fallback content ∧
    ((create_fallback content).diagnosticoLLM = "SIM" ↔
      rejectCount (pyLower content) < approveCount (pyLower content)) ∧
    (approveCount (pyLower content) ≤ rejectCount (pyLower content) →
      (create_fallback content).diagnosticoLLM = "NÃO") ∧
    (create_fallback content).confidence =
      min 0.8 (0.5 + 0.1 *
        (if rejectCount (pyLower content) < approveCount (pyLower content)
          then (approveCount (pyLower content) : ℚ)
          else (rejectCount (pyLower content) : ℚ))) ∧
    0.5 ≤ (create_fallback content).confidence ∧
    (create_fallback content).confidence ≤ 0.8 ∧
    (create_fallback content).justificativaLLM = content.take 100 := by
  subst hd he
  have hbound : ∀ c : Nat, (0.5 : ℚ) ≤ min 0.8 (0.5 + (c : ℚ) * 0.1) := by
    intro c
    refine le_min (by norm_num) ?_
    have hc : (0 : ℚ) ≤ (c : ℚ) * 0.1 := by positivity
    linarith
  refine ⟨?_, ?_, ?_, ?_, ?_, ?_, ?_⟩
  · rw [parse_response]
    split_ifs <;> rfl
  · rw [create_fallback]
    split_ifs with h
    · simpa using h
    · simp [h]
  · intro hle
    rw [create_fallback, if_neg (by omega)]
  · rw [create_fallback]
    split_ifs with h
    · rw [mul_comm]
    · rw [mul_comm]
  · rw [create_fallback]
    split_ifs with h
    · exact hbound _
    · exact hbound _
  · rw [create_fallback]
    split_ifs with h
    · exact min_le_left _ _
    · exact min_le_left _ _
  · rw [create_fallback]
    split_ifs with h <;> rfl

/-- Witness for C4 at a concrete input with no keyword occurrences: the
fallback gives "NÃO" at confidence 0.5. -/
theorem parse_response_fallback_witness :
    parse_response none none "ok".data = create_fallback "ok".data ∧
    (create_fallback "ok".data).diagnosticoLLM = "NÃO" ∧
    (create_fallback "ok".data).confidence = 0.5 := by
  refine ⟨(parse_response_fallback none none "ok".data rfl rfl).1, ?_, ?_⟩
  · exact (parse_response_fallback none none "ok".data rfl rfl).2.2.1 (by decide)
  · have h := (parse_response_fallback none none "ok".data rfl rfl).2.2.2.1
    have hrc : rejectCount (pyLower "ok".data) = 0 := by decide
    have hac : approveCount (pyLower "ok".data) = 0 := by decide
    rw [h, hrc, hac]
    norm_num

/-- Each predicate-driven filter of a row list partitions it. -/
theorem filter_partition_helper {ρ : Type} [DecidableEq ρ] (p : ρ → Bool) (df : List ρ) :
    IsPartitionBy (df.filter (fun r => !p r), df.filter p) df p := by
  have hperm : (df.filter (fun r => !p r) ++ df.filter p).Perm df := by
    refine List.Perm.trans List.perm_append_comm ?_
    exact List.filter_append_perm p df
  refine ⟨hperm, ?_, ?_, ?_, ?_⟩
  · intro r
    simp [List.mem_filter]
  · intro r
    simp [List.mem_filter]
  · intro r
    have h := hperm.count_eq r
    rwa [List.count_append] at h
  · rintro r ⟨h1, h2⟩
    rw [List.mem_filter] at h1 h2
    have hf : p r = false := by simpa using h1.2
    rw [h2.2] at hf
    cases hf

/-- C7: each of filtrar_por_ruido, filtrar_por_regex and
filtrar_por_repeticao partitions its input frame: the two returned
frames are disjoint, together they are exactly the input rows (each row
appearing exactly once, unmodified), and membership is decided by the
corresponding predicate on the JUSTIFICATIVA column. -/
theorem row_filters_partition {ρ : Type} [DecidableEq ρ] (just : ρ → List Char)
    (df : List ρ) :
    IsPartitionBy (filtrar_por_ruido just df) df (fun r => filtro_ruido (just r)) ∧
    IsPartitionBy (filtrar_por_regex just df) df (fun r => regex_vazia (just r)) ∧
    IsPartitionBy (filtrar_por_repeticao just df) df (fun r => eh_repetitiva (just r)) :=
  ⟨filter_partition_helper _ df, filter_partition_helper _ df,
    filter_partition_helper _ df⟩

/-- C10: ids_repetidos_puros is a set difference away from ids_base, so
the two are disjoint by construction, the assert of
filtrar_por_similaridade never fires, and the function always returns
its triple. -/
theorem filtrar_por_similaridade_assert_unreachable {ρ : Type} (idOf : ρ → String)
    (df : List ρ) (pairs : List (String × String)) :
    Disjoint (ids_repetidos_puros pairs) (ids_base pairs) ∧
    (filtrar_por_similaridade idOf df pairs).isOk = true := by
  have hd : Disjoint (ids_repetidos_puros pairs) (ids_base pairs) :=
    Finset.sdiff_disjoint
  refine ⟨hd, ?_⟩
  rw [filtrar_por_similaridade, if_pos (Finset.disjoint_iff_inter_eq_empty.mp hd)]
  rfl

/-- C5: detectar_similares_consecutivos_tfidf raises ValueError exactly
when a required column is missing; otherwise it records precisely the
ordered pairs of distinct filtered-row indices that are within the
sliding window (their distance at most janela) and whose TF-IDF cosine
similarity reaches limiar, rows with null JUSTIFICATIVA having been
dropped before comparison. -/
theorem detectar_similares_window (cols : List String)
    (rows : List (Option String × String)) (sim : Nat → Nat → ℚ)
    (janela : Nat) (limiar : ℚ) :
    ((detectar_similares_consecutivos_tfidf cols rows sim janela limiar).isOk = false ↔
      ¬("JUSTIFICATIVA" ∈ cols ∧ "ID TERMO" ∈ cols)) ∧
    ("JUSTIFICATIVA" ∈ cols → "ID TERMO" ∈ cols →
      detectar_similares_consecutivos_tfidf cols rows sim janela limiar =
        Except.ok (windowPairs sim (dropNaJustificativa rows).length janela limiar)) ∧
    (∀ i j, (i, j) ∈ windowPairs sim (dropNaJustificativa rows).length janela limiar ↔
      i < (dropNaJustificativa rows).length ∧ j < (dropNaJustificativa rows).length ∧
      i ≠ j ∧ i - j ≤ janela ∧ j - i ≤ janela ∧ limiar ≤ sim i j) := by
  refine ⟨?_, ?_, ?_⟩
  · rw [detectar_similares_consecutivos_tfidf]
    split_ifs with h
    · simpa [Except.isOk, Except.toBool] using h
    · simpa [Except.isOk, Except.toBool] using h
  · intro h1 h2
    rw [detectar_similares_consecutivos_tfidf, if_pos ⟨h1, h2⟩]
  · intro i j
    rw [windowPairs]
    constructor
    · intro hmem
      rw [List.mem_flatMap] at hmem
      obtain ⟨a, ha, hin⟩ := hmem
      rw [List.mem_filterMap] at hin
      obtain ⟨b, hb, hsome⟩ := hin
      rw [List.mem_range] at ha
      rw [List.mem_range'_1] at hb
      by_cases hcond : a ≠ b ∧ limiar ≤ sim a b
      · rw [if_pos hcond] at hsome
        obtain ⟨hai, hbj⟩ : a = i ∧ b = j := by
          constructor <;> injection hsome with h1 <;> simp_all
        subst hai
        subst hbj
        exact ⟨ha, by omega, hcond.1, by omega, by omega, hcond.2⟩
      · rw [if_neg hcond] at hsome
        cases hsome
    · rintro ⟨hi, hj, hne, hd1, hd2, hsim⟩
      rw [List.mem_flatMap]
      refine ⟨i, List.mem_range.mpr hi, ?_⟩
      rw [List.mem_filterMap]
      refine ⟨j, ?_, by rw [if_pos ⟨hne, hsim⟩]⟩
      rw [List.mem_range'_1]
      omega

/-- Witness for C5 at a concrete input: one null row is dropped, the two
remaining rows form both ordered similar pairs, and a frame missing the
ID TERMO column raises. -/
theorem detectar_similares_window_witness :
    detectar_similares_consecutivos_tfidf ["JUSTIFICATIVA", "ID TERMO"]
      [(some "a", "1"), (none, "2"), (some "b", "3")] (fun _ _ => 1) 10 (mkRat 7 10) =
      Except.ok [(0, 1), (1, 0)] ∧
    (detectar_similares_consecutivos_tfidf ["JUSTIFICATIVA"]
      [(some "a", "1")] (fun _ _ => 1) 10 (mkRat 7 10)).isOk = false := by
  constructor
  · have h := (detectar_similares_window ["JUSTIFICATIVA", "ID TERMO"]
      [(some "a", "1"), (none, "2"), (some "b", "3")] (fun _ _ => 1) 10
      (mkRat 7 10)).2.1 (by decide) (by decide)
    have hw : windowPairs (fun _ _ => (1 : ℚ))
        (dropNaJustificativa [(some "a", "1"), (none, "2"), (some "b", "3")]).length
        10 (mkRat 7 10) = [(0, 1), (1, 0)] := by decide
    rw [h, hw]
  · exact ((detectar_similares_window ["JUSTIFICATIVA"]
      [(some "a", "1")] (fun _ _ => 1) 10 (mkRat 7 10)).1).mpr (by decide)

/-- A decimal digit character decodes back to its digit. -/
theorem digitChar_toNat (d : Nat) (hd : d < 10) : (digitChar d).toNat = 48 + d := by
  interval_cases d <;> decide

/-- Appending a digit multiplies the decoded value by ten. -/
theorem decimalVal_append_digit (s : List Char) (c : Char) :
    decimalVal (s ++ [c]) = 10 * decimalVal s + (c.toNat - 48) := by
  rw [decimalVal, decimalVal, List.foldl_append]
  rfl

/-- decimalVal decodes decimalRepr. -/
theorem decimalVal_decimalRepr (n : Nat) : decimalVal (decimalRepr n) = n := by
  induction n using Nat.strong_induction_on with
  | _ n ih =>
    rw [decimalRepr]
    by_cases h : n < 10
    · rw [dif_pos h]
      rw [decimalVal]
      simp [digitChar_toNat n h]
    · rw [dif_neg h, decimalVal_append_digit,
        ih (n / 10) (Nat.div_lt_self (by omega) (by omega)),
        digitChar_toNat _ (Nat.mod_lt _ (by omega))]
      omega

/-- Distinct numbers have distinct decimal representations. -/
theorem decimalRepr_injective {m n : Nat} (h : decimalRepr m = decimalRepr n) : m = n := by
  have hm := decimalVal_decimalRepr m
  rw [h, decimalVal_decimalRepr] at hm
  omega

/-- A decimal representation is never empty. -/
theorem decimalRepr_ne_nil (n : Nat) : decimalRepr n ≠ [] := by
  rw [decimalRepr]
  by_cases h : n < 10
  · rw [dif_pos h]; simp
  · rw [dif_neg h]; simp

/-- The candidate destination names of one file are pairwise distinct. -/
theorem candName_injective (stem ext : List Char) {a b : Nat}
    (h : candName stem ext a = candName stem ext b) : a = b := by
  have hlen0 : ∀ c : Nat, (decimalRepr c).length ≠ 0 := by
    intro c
    simpa [List.length_eq_zero] using decimalRepr_ne_nil c
  match a, b with
  | 0, 0 => rfl
  | 0, b + 1 =>
    exfalso
    have hlen := congrArg List.length h
    rw [candName, candName] at hlen
    simp [List.length_append] at hlen
    have := hlen0 (b + 1)
    omega
  | a + 1, 0 =>
    exfalso
    have hlen := congrArg List.length h
    rw [candName, candName] at hlen
    simp [List.length_append] at hlen
    have := hlen0 (a + 1)
    omega
  | a + 1, b + 1 =>
    rw [candName, candName] at h
    have h1 := List.append_cancel_left h
    simp only [List.cons.injEq, true_and] at h1
    have h3 : decimalRepr (a + 1) = decimalRepr (b + 1) := by
      have hlen := congrArg List.length h1
      simp [List.length_append] at hlen
      exact List.append_inj_left h1 hlen
    have := decimalRepr_injective h3
    omega

/-- If the bounded collision search lands on a taken name, every
candidate it inspected was taken. -/
theorem freshFrom_mem_all (names : List (List Char)) (stem ext : List Char) :
    ∀ fuel k, freshFrom names stem ext k fuel ∈ names →
      ∀ j, j ≤ fuel → candName stem ext (k + j) ∈ names := by
  intro fuel
  induction fuel with
  | zero =>
    intro k hmem j hj
    interval_cases j
    simpa [freshFrom] using hmem
  | succ fuel ih =>
    intro k hmem j hj
    rw [freshFrom] at hmem
    by_cases hc : candName stem ext k ∈ names
    · rw [if_pos hc] at hmem
      match j with
      | 0 => simpa using hc
      | j + 1 =>
        have hstep := ih (k + 1) hmem j (by omega)
        rwa [show k + 1 + j = k + (j + 1) by omega] at hstep
    · rw [if_neg hc] at hmem
      exact absurd hmem hc

/-- The chosen destination name is never one already present: nothing is
ever overwritten. -/
theorem freshName_not_mem (names : List (List Char)) (stem ext : List Char) :
    freshName names stem ext ∉ names := by
  intro hmem
  have hall : ∀ j, j ≤ names.length → candName stem ext j ∈ names := by
    intro j hj
    have hstep := freshFrom_mem_all names stem ext names.length 0 hmem j hj
    simpa using hstep
  have hsub : (List.range (names.length + 1)).map (candName stem ext) ⊆ names := by
    intro x hx
    rw [List.mem_map] at hx
    obtain ⟨j, hj, rfl⟩ := hx
    rw [List.mem_range] at hj
    exact hall j (by omega)
  have hnodup : ((List.range (names.length + 1)).map (candName stem ext)).Nodup := by
    refine List.Nodup.map ?_ (List.nodup_range _)
    intro a b hab
    exact candName_injective stem ext hab
  have hle := (List.subperm_of_subset hnodup hsub).length_le
  simp at hle

/-- The collision search always returns one of the numeric-suffix
candidates. -/
theorem freshFrom_is_cand (names : List (List Char)) (stem ext : List Char) :
    ∀ fuel k, ∃ j, freshFrom names stem ext k fuel = candName stem ext j := by
  intro fuel
  induction fuel with
  | zero => intro k; exact ⟨k, rfl⟩
  | succ fuel ih =>
    intro k
    rw [freshFrom]
    by_cases hc : candName stem ext k ∈ names
    · rw [if_pos hc]; exact ih (k + 1)
    · rw [if_neg hc]; exact ⟨k, rfl⟩

/-- lexLe is reflexive. -/
theorem lexLe_refl (l : List Char) : lexLe l l = true := by
  induction l with
  | nil => rfl
  | cons a as ih =>
    rw [lexLe, if_neg (by omega), if_neg (by omega)]
    exact ih

/-- lexLe is total. -/
theorem lexLe_total (a b : List Char) : lexLe a b = true ∨ lexLe b a = true := by
  induction a generalizing b with
  | nil => left; rfl
  | cons x xs ih =>
    cases b with
    | nil => right; rfl
    | cons y ys =>
      rw [lexLe, lexLe]
      by_cases h1 : x.toNat < y.toNat
      · left; rw [if_pos h1]
      · by_cases h2 : y.toNat < x.toNat
        · right; rw [if_pos h2]
        · rw [if_neg h1, if_neg h2, if_neg h2, if_neg h1]
          exact ih ys

/-- lexLe is transitive. -/
theorem lexLe_trans (a b c : List Char) (hab : lexLe a b = true)
    (hbc : lexLe b c = true) : lexLe a c = true := by
  induction a generalizing b c with
  | nil => rfl
  | cons x xs ih =>
    cases b with
    | nil => exact absurd hab (by simp [lexLe])
    | cons y ys =>
      cases c with
      | nil => exact absurd hbc (by simp [lexLe])
      | cons z zs =>
        rw [lexLe] at hab hbc ⊢
        by_cases hyz : y.toNat < z.toNat
        · by_cases hxy : x.toNat < y.toNat
          · rw [if_pos (by omega)]
          · by_cases hyx : y.toNat < x.toNat
            · rw [if_pos hyx] at hab
              rw [if_neg hxy] at hab
              exact absurd hab (by simp)
            · rw [if_pos (by omega)]
        · by_cases hzy : z.toNat < y.toNat
          · rw [if_neg hyz, if_pos hzy] at hbc
            exact absurd hbc (by simp)
          · by_cases hxy : x.toNat < y.toNat
            · rw [if_pos (by omega)]
            · by_cases hyx : y.toNat < x.toNat
              · rw [if_neg hxy, if_pos hyx] at hab
                exact absurd hab (by simp)
              · rw [if_neg (by omega : ¬ x.toNat < z.toNat),
                  if_neg (by omega : ¬ z.toNat < x.toNat)]
                rw [if_neg hxy, if_neg hyx] at hab
                rw [if_neg hyz, if_neg hzy] at hbc
                exact ih ys zs hab hbc

/-- The head of the sorted group is a path-minimal element. -/
theorem mergeSort_head_min (g : List SFile) (m : SFile) (rest : List SFile)
    (h : g.mergeSort pathLe = m :: rest) : ∀ x ∈ g, pathLe m x = true := by
  have hsorted := @List.sorted_mergeSort SFile pathLe
    (fun a b c hab hbc => lexLe_trans a.path b.path c.path hab hbc)
    (fun a b => by
      rcases lexLe_total a.path b.path with h1 | h1 <;> simp [pathLe, h1])
    g
  rw [h] at hsorted
  intro x hx
  have hperm := List.mergeSort_perm g pathLe
  rw [h] at hperm
  have hxmem : x ∈ m :: rest := hperm.symm.subset hx
  rcases List.mem_cons.mp hxmem with rfl | hxr
  · exact lexLe_refl x.path
  · exact (List.pairwise_cons.mp hsorted).1 x hxr

/-- Destination bookkeeping for a move into UNIQUE. -/
theorem dests_snoc_true (ms : List (SFile × Bool × List Char)) (f : SFile)
    (d : List Char) :
    uniqueDests (ms ++ [(f, true, d)]) = uniqueDests ms ++ [d] ∧
    repDests (ms ++ [(f, true, d)]) = repDests ms := by
  constructor <;> simp [uniqueDests, repDests]

/-- Destination bookkeeping for a move into REPETITION. -/
theorem dests_snoc_false (ms : List (SFile × Bool × List Char)) (f : SFile)
    (d : List Char) :
    uniqueDests (ms ++ [(f, false, d)]) = uniqueDests ms ∧
    repDests (ms ++ [(f, false, d)]) = repDests ms ++ [d] := by
  constructor <;> simp [uniqueDests, repDests]

/-- Unfolding of moveOne into UNIQUE. -/
theorem moveOne_true_eq (st : MoveState) (f : SFile) :
    moveOne true st f =
      ⟨st.uniqueNames ++ [freshName st.uniqueNames f.stem f.ext], st.repNames,
        st.moves ++ [(f, true, freshName st.uniqueNames f.stem f.ext)]⟩ := rfl

/-- Unfolding of moveOne into REPETITION. -/
theorem moveOne_false_eq (st : MoveState) (f : SFile) :
    moveOne false st f =
      ⟨st.uniqueNames, st.repNames ++ [freshName st.repNames f.stem f.ext],
        st.moves ++ [(f, false, freshName st.repNames f.stem f.ext)]⟩ := rfl

/-- One move preserves the soundness invariant. -/
theorem movesOk_moveOne (u0 r0 : List (List Char)) (st : MoveState) (f : SFile)
    (b : Bool) (hok : MovesOk u0 r0 st) : MovesOk u0 r0 (moveOne b st f) := by
  obtain ⟨hu, hr, hnu, hdu, hnr, hdr, hcand⟩ := hok
  cases b
  · rw [moveOne_false_eq]
    obtain ⟨kf, hkf⟩ := freshFrom_is_cand st.repNames f.stem f.ext st.repNames.length 0
    have hfresh0 := freshName_not_mem st.repNames f.stem f.ext
    have hmem_iff : ∀ x : List Char,
        x ∈ st.repNames ↔ x ∈ r0 ∨ x ∈ repDests st.moves := by
      intro x
      rw [hr, List.mem_append]
    have hfresh : freshName st.repNames f.stem f.ext ∉ r0 ∧
        freshName st.repNames f.stem f.ext ∉ repDests st.moves := by
      constructor
      · intro hmem
        exact hfresh0 ((hmem_iff _).mpr (Or.inl hmem))
      · intro hmem
        exact hfresh0 ((hmem_iff _).mpr (Or.inr hmem))
    refine ⟨?_, ?_, ?_, ?_, ?_, ?_, ?_⟩
    · rw [show (⟨st.uniqueNames, _, _⟩ : MoveState).moves =
        st.moves ++ [(f, false, freshName st.repNames f.stem f.ext)] from rfl,
        (dests_snoc_false st.moves f _).1]
      exact hu
    · rw [show (⟨st.uniqueNames, _, _⟩ : MoveState).moves =
        st.moves ++ [(f, false, freshName st.repNames f.stem f.ext)] from rfl,
        (dests_snoc_false st.moves f _).2, hr, List.append_assoc]
    · rw [show (⟨st.uniqueNames, _, _⟩ : MoveState).moves =
        st.moves ++ [(f, false, freshName st.repNames f.stem f.ext)] from rfl,
        (dests_snoc_false st.moves f _).1]
      exact hnu
    · rw [show (⟨st.uniqueNames, _, _⟩ : MoveState).moves =
        st.moves ++ [(f, false, freshName st.repNames f.stem f.ext)] from rfl,
        (dests_snoc_false st.moves f _).1]
      exact hdu
    · rw [show (⟨st.uniqueNames, _, _⟩ : MoveState).moves =
        st.moves ++ [(f, false, freshName st.repNames f.stem f.ext)] from rfl,
        (dests_snoc_false st.moves f _).2, List.nodup_append]
      exact ⟨hnr, List.nodup_singleton _, fun a ha hb => by
        rw [List.mem_singleton] at hb
        subst hb
        exact hfresh.2 ha⟩
    · rw [show (⟨st.uniqueNames, _, _⟩ : MoveState).moves =
        st.moves ++ [(f, false, freshName st.repNames f.stem f.ext)] from rfl,
        (dests_snoc_false st.moves f _).2]
      intro d hd
      rcases List.mem_append.mp hd with hold | hnew
      · exact hdr d hold
      · rw [List.mem_singleton] at hnew
        subst hnew
        exact hfresh.1
    · intro mv hmv
      rcases List.mem_append.mp hmv with hold | hnew
      · exact hcand mv hold
      · rw [List.mem_singleton] at hnew
        subst hnew
        exact ⟨kf, hkf⟩
  · rw [moveOne_true_eq]
    obtain ⟨ku, hku⟩ := freshFrom_is_cand st.uniqueNames f.stem f.ext st.uniqueNames.length 0
    have hfresh0 := freshName_not_mem st.uniqueNames f.stem f.ext
    have hmem_iff : ∀ x : List Char,
        x ∈ st.uniqueNames ↔ x ∈ u0 ∨ x ∈ uniqueDests st.moves := by
      intro x
      rw [hu, List.mem_append]
    have hfresh : freshName st.uniqueNames f.stem f.ext ∉ u0 ∧
        freshName st.uniqueNames f.stem f.ext ∉ uniqueDests st.moves := by
      constructor
      · intro hmem
        exact hfresh0 ((hmem_iff _).mpr (Or.inl hmem))
      · intro hmem
        exact hfresh0 ((hmem_iff _).mpr (Or.inr hmem))
    refine ⟨?_, ?_, ?_, ?_, ?_, ?_, ?_⟩
    · rw [show (⟨_, st.repNames, _⟩ : MoveState).moves =
        st.moves ++ [(f, true, freshName st.uniqueNames f.stem f.ext)] from rfl,
        (dests_snoc_true st.moves f _).1, hu, List.append_assoc]
    · rw [show (⟨_, st.repNames, _⟩ : MoveState).moves =
        st.moves ++ [(f, true, freshName st.uniqueNames f.stem f.ext)] from rfl,
        (dests_snoc_true st.moves f _).2]
      exact hr
    · rw [show (⟨_, st.repNames, _⟩ : MoveState).moves =
        st.moves ++ [(f, true, freshName st.uniqueNames f.stem f.ext)] from rfl,
        (dests_snoc_true st.moves f _).1, List.nodup_append]
      exact ⟨hnu, List.nodup_singleton _, fun a ha hb => by
        rw [List.mem_singleton] at hb
        subst hb
        exact hfresh.2 ha⟩
    · rw [show (⟨_, st.repNames, _⟩ : MoveState).moves =
        st.moves ++ [(f, true, freshName st.uniqueNames f.stem f.ext)] from rfl,
        (dests_snoc_true st.moves f _).1]
      intro d hd
      rcases List.mem_append.mp hd with hold | hnew
      · exact hdu d hold
      · rw [List.mem_singleton] at hnew
        subst hnew
        exact hfresh.1
    · rw [show (⟨_, st.repNames, _⟩ : MoveState).moves =
        st.moves ++ [(f, true, freshName st.uniqueNames f.stem f.ext)] from rfl,
        (dests_snoc_true st.moves f _).2]
      exact hnr
    · rw [show (⟨_, st.repNames, _⟩ : MoveState).moves =
        st.moves ++ [(f, true, freshName st.uniqueNames f.stem f.ext)] from rfl,
        (dests_snoc_true st.moves f _).2]
      exact hdr
    · intro mv hmv
      rcases List.mem_append.mp hmv with hold | hnew
      · exact hcand mv hold
      · rw [List.mem_singleton] at hnew
        subst hnew
        exact ⟨ku, hku⟩

/-- A run of REPETITION moves preserves the invariant. -/
theorem movesOk_foldl_false (u0 r0 : List (List Char)) (rest : List SFile) :
    ∀ st : MoveState, MovesOk u0 r0 st →
      MovesOk u0 r0 (rest.foldl (moveOne false) st) := by
  induction rest with
  | nil => intro st h; exact h
  | cons f fs ih =>
    intro st h
    rw [List.foldl_cons]
    exact ih (moveOne false st f) (movesOk_moveOne u0 r0 st f false h)

/-- Processing one hash group preserves the invariant. -/
theorem movesOk_moveGroup (u0 r0 : List (List Char)) (st : MoveState) (g : List SFile)
    (h : MovesOk u0 r0 st) : MovesOk u0 r0 (moveGroup st g) := by
  rcases hs : g.mergeSort pathLe with - | ⟨orig, rest⟩
  · have heq : moveGroup st g = st := by rw [moveGroup, hs]
    rwa [heq]
  · have heq : moveGroup st g = rest.foldl (moveOne false) (moveOne true st orig) := by
      rw [moveGroup, hs]
    rw [heq]
    exact movesOk_foldl_false u0 r0 rest (moveOne true st orig)
      (movesOk_moveOne u0 r0 st orig true h)

/-- The whole moving pass satisfies the invariant. -/
theorem movesOk_mover (u0 r0 : List (List Char))
    (mapeamento : List (String × List SFile)) :
    MovesOk u0 r0 (mover_arquivos u0 r0 mapeamento) := by
  rw [mover_arquivos]
  have hinit : MovesOk u0 r0 ⟨u0, r0, []⟩ := by
    refine ⟨by simp [uniqueDests], by simp [repDests], by simp [uniqueDests],
      by simp [uniqueDests], by simp [repDests], by simp [repDests], by simp⟩
  have hstep : ∀ (ms : List (String × List SFile)) (st : MoveState),
      MovesOk u0 r0 st →
      MovesOk u0 r0 (ms.foldl (fun st p => moveGroup st p.2) st) := by
    intro ms
    induction ms with
    | nil => intro st h; exact h
    | cons p ps ih =>
      intro st h
      rw [List.foldl_cons]
      exact ih (moveGroup st p.2) (movesOk_moveGroup u0 r0 st p.2 h)
  exact hstep mapeamento ⟨u0, r0, []⟩ hinit

/-- Moves of a run of REPETITION moves, projected to source and flag. -/
theorem foldl_moveOne_false_moves (rest : List SFile) :
    ∀ st : MoveState,
      ((rest.foldl (moveOne false) st).moves).map (fun m => (m.1, m.2.1)) =
        (st.moves.map (fun m => (m.1, m.2.1))) ++ rest.map (fun f => (f, false)) := by
  induction rest with
  | nil => intro st; simp
  | cons f fs ih =>
    intro st
    rw [List.foldl_cons, ih, moveOne_false_eq]
    simp [List.append_assoc]

/-- Moves of one hash group, projected to source and flag. -/
theorem moveGroup_moves (st : MoveState) (g : List SFile) :
    ((moveGroup st g).moves).map (fun m => (m.1, m.2.1)) =
      (st.moves.map (fun m => (m.1, m.2.1))) ++ groupMoves g := by
  rcases hs : g.mergeSort pathLe with - | ⟨orig, rest⟩
  · have h1 : moveGroup st g = st := by rw [moveGroup, hs]
    have h2 : groupMoves g = [] := by rw [groupMoves, hs]
    rw [h1, h2, List.append_nil]
  · have h1 : moveGroup st g = rest.foldl (moveOne false) (moveOne true st orig) := by
      rw [moveGroup, hs]
    have h2 : groupMoves g = (orig, true) :: rest.map (fun f => (f, false)) := by
      rw [groupMoves, hs]
    rw [h1, h2, foldl_moveOne_false_moves, moveOne_true_eq]
    simp [List.append_assoc]

/-- Moves of the whole pass, projected to source and flag. -/
theorem mover_moves (u0 r0 : List (List Char))
    (mapeamento : List (String × List SFile)) :
    ((mover_arquivos u0 r0 mapeamento).moves).map (fun m => (m.1, m.2.1)) =
      mapeamento.flatMap (fun p => groupMoves p.2) := by
  rw [mover_arquivos]
  have hgen : ∀ (ms : List (String × List SFile)) (st : MoveState),
      ((ms.foldl (fun st p => moveGroup st p.2) st).moves).map (fun m => (m.1, m.2.1)) =
        st.moves.map (fun m => (m.1, m.2.1)) ++ ms.flatMap (fun p => groupMoves p.2) := by
    intro ms
    induction ms with
    | nil => intro st; simp
    | cons p ps ih =>
      intro st
      rw [List.foldl_cons, ih, moveGroup_moves]
      simp [List.append_assoc]
  have h := hgen mapeamento ⟨u0, r0, []⟩
  simpa using h

/-- Pointwise permutation congruence for flatMap. -/
theorem flatMap_perm_of_perm {α β : Type} (l : List α) (f g : α → List β)
    (h : ∀ a ∈ l, (f a).Perm (g a)) : (l.flatMap f).Perm (l.flatMap g) := by
  induction l with
  | nil => rfl
  | cons x xs ih =>
    simp only [List.flatMap_cons]
    exact (h x (List.mem_cons_self _ _)).append
      (ih (fun a ha => h a (List.mem_cons_of_mem _ ha)))

/-- Sources of a group move list are the sorted group. -/
theorem groupMoves_fst (g : List SFile) :
    (groupMoves g).map Prod.fst = g.mergeSort pathLe := by
  rcases hs : g.mergeSort pathLe with - | ⟨orig, rest⟩
  · rw [groupMoves, hs]; rfl
  · rw [groupMoves, hs]
    simp [Function.comp_def]

/-- Inserting a file adds it to the flattened groups, up to order. -/
theorem insertGroup_flat (m : List (String × List SFile)) (f : SFile) :
    ((insertGroup m f).flatMap (fun p => p.2)).Perm
      ((m.flatMap (fun p => p.2)) ++ [f]) := by
  induction m with
  | nil => simp [insertGroup]
  | cons hd rest ih =>
    obtain ⟨h, g⟩ := hd
    rw [insertGroup]
    by_cases hh : h = f.hash
    · rw [if_pos hh]
      simp only [List.flatMap_cons]
      rw [List.append_assoc, List.append_assoc]
      exact List.Perm.append_left g List.perm_append_comm
    · rw [if_neg hh]
      simp only [List.flatMap_cons]
      refine (List.Perm.append_left g ih).trans ?_
      rw [List.append_assoc]

/-- The grouped files are exactly the scanned files, up to order. -/
theorem mapear_por_hash_flat (files : List SFile) :
    ((mapear_por_hash files).flatMap (fun p => p.2)).Perm files := by
  have hgen : ∀ (fs : List SFile) (m : List (String × List SFile)),
      ((fs.foldl insertGroup m).flatMap (fun p => p.2)).Perm
        ((m.flatMap (fun p => p.2)) ++ fs) := by
    intro fs
    induction fs with
    | nil => intro m; simp
    | cons f fs ih =>
      intro m
      rw [List.foldl_cons]
      refine (ih (insertGroup m f)).trans ?_
      refine ((insertGroup_flat m f).append_right fs).trans ?_
      rw [List.append_assoc]
      exact List.Perm.refl _
  have h := hgen files []
  simpa using h

/-- Every member of a group carries the hash of its key. -/
theorem insertGroup_hash (m : List (String × List SFile)) (f : SFile)
    (hm : ∀ p ∈ m, ∀ x ∈ p.2, x.hash = p.1) :
    ∀ p ∈ insertGroup m f, ∀ x ∈ p.2, x.hash = p.1 := by
  induction m with
  | nil =>
    intro p hp x hx
    rw [insertGroup, List.mem_singleton] at hp
    subst hp
    rw [List.mem_singleton] at hx
    subst hx
    rfl
  | cons hd rest ih =>
    obtain ⟨h, g⟩ := hd
    intro p hp x hx
    rw [insertGroup] at hp
    by_cases hh : h = f.hash
    · rw [if_pos hh] at hp
      rcases List.mem_cons.mp hp with rfl | hrest
      · rcases List.mem_append.mp hx with hg | hf
        · exact hm (h, g) (List.mem_cons_self _ _) x hg
        · rw [List.mem_singleton] at hf
          subst hf
          exact hh.symm
      · exact hm _ (List.mem_cons_of_mem _ hrest) x hx
    · rw [if_neg hh] at hp
      rcases List.mem_cons.mp hp with rfl | hrest
      · exact hm _ (List.mem_cons_self _ _) x hx
      · exact ih (fun q hq => hm q (List.mem_cons_of_mem _ hq)) p hrest x hx

/-- Keys after an insertion come from the old keys or the new hash. -/
theorem insertGroup_keys_sub (m : List (String × List SFile)) (f : SFile) :
    ∀ h ∈ (insertGroup m f).map Prod.fst, h ∈ m.map Prod.fst ∨ h = f.hash := by
  induction m with
  | nil =>
    intro h hh
    rw [insertGroup] at hh
    right
    simpa using hh
  | cons hd rest ih =>
    obtain ⟨k, g⟩ := hd
    intro h hh
    rw [insertGroup] at hh
    by_cases hk : k = f.hash
    · rw [if_pos hk] at hh
      left
      simpa using hh
    · rw [if_neg hk] at hh
      simp only [List.map_cons, List.mem_cons] at hh
      rcases hh with rfl | hh
      · left; simp
      · rcases ih h hh with hold | hnew
        · left; simp [hold]
        · right; exact hnew

/-- Insertion keeps the dict keys distinct. -/
theorem insertGroup_keys_nodup (m : List (String × List SFile)) (f : SFile)
    (hm : (m.map Prod.fst).Nodup) : ((insertGroup m f).map Prod.fst).Nodup := by
  induction m with
  | nil => simp [insertGroup]
  | cons hd rest ih =>
    obtain ⟨k, g⟩ := hd
    rw [List.map_cons, List.nodup_cons] at hm
    rw [insertGroup]
    by_cases hk : k = f.hash
    · rw [if_pos hk, List.map_cons, List.nodup_cons]
      exact ⟨hm.1, hm.2⟩
    · rw [if_neg hk, List.map_cons, List.nodup_cons]
      refine ⟨?_, ih hm.2⟩
      intro hmem
      rcases insertGroup_keys_sub rest f k hmem with hold | hnew
      · exact hm.1 hold
      · exact hk hnew

/-- mapear_por_hash produces distinct hash keys. -/
theorem mapear_por_hash_keys_nodup (files : List SFile) :
    ((mapear_por_hash files).map Prod.fst).Nodup := by
  rw [mapear_por_hash]
  have hgen : ∀ (fs : List SFile) (m : List (String × List SFile)),
      (m.map Prod.fst).Nodup → ((fs.foldl insertGroup m).map Prod.fst).Nodup := by
    intro fs
    induction fs with
    | nil => intro m h; exact h
    | cons f fs ih =>
      intro m h
      rw [List.foldl_cons]
      exact ih (insertGroup m f) (insertGroup_keys_nodup m f h)
  exact hgen files [] (by simp)

/-- mapear_por_hash groups every file under its own hash. -/
theorem mapear_por_hash_hashes (files : List SFile) :
    ∀ p ∈ mapear_por_hash files, ∀ x ∈ p.2, x.hash = p.1 := by
  rw [mapear_por_hash]
  have hgen : ∀ (fs : List SFile) (m : List (String × List SFile)),
      (∀ p ∈ m, ∀ x ∈ p.2, x.hash = p.1) →
      ∀ p ∈ fs.foldl insertGroup m, ∀ x ∈ p.2, x.hash = p.1 := by
    intro fs
    induction fs with
    | nil => intro m h; exact h
    | cons f fs ih =>
      intro m h
      rw [List.foldl_cons]
      exact ih (insertGroup m f) (insertGroup_hash m f h)
  exact hgen files [] (by simp)

/-- Groups produced by the hash map are never empty. -/
theorem mapear_por_hash_ne_nil (files : List SFile) :
    ∀ p ∈ mapear_por_hash files, p.2 ≠ [] := by
  rw [mapear_por_hash]
  have hins : ∀ (m : List (String × List SFile)) (f : SFile),
      (∀ p ∈ m, p.2 ≠ []) → ∀ p ∈ insertGroup m f, p.2 ≠ [] := by
    intro m f
    induction m with
    | nil =>
      intro _ p hp
      rw [insertGroup, List.mem_singleton] at hp
      subst hp
      simp
    | cons hd rest ih =>
      obtain ⟨k, g⟩ := hd
      intro hm p hp
      rw [insertGroup] at hp
      by_cases hk : k = f.hash
      · rw [if_pos hk] at hp
        rcases List.mem_cons.mp hp with rfl | hrest
        · simp
        · exact hm _ (List.mem_cons_of_mem _ hrest)
      · rw [if_neg hk] at hp
        rcases List.mem_cons.mp hp with rfl | hrest
        · exact hm _ (List.mem_cons_self _ _)
        · exact ih (fun q hq => hm q (List.mem_cons_of_mem _ hq)) p hrest
  have hgen : ∀ (fs : List SFile) (m : List (String × List SFile)),
      (∀ p ∈ m, p.2 ≠ []) → ∀ p ∈ fs.foldl insertGroup m, p.2 ≠ [] := by
    intro fs
    induction fs with
    | nil => intro m h; exact h
    | cons f fs ih =>
      intro m h
      rw [List.foldl_cons]
      exact ih (insertGroup m f) (hins m f h)
  exact hgen files [] (by simp)

/-- Structure of the moves of one nonempty group: the path-minimal file
goes to UNIQUE and the other n-1 files to REPETITION. -/
theorem groupMoves_structure (g : List SFile) (hne : g ≠ []) :
    ∃ m rest, g.mergeSort pathLe = m :: rest ∧
      (∀ x ∈ g, pathLe m x = true) ∧
      groupMoves g = (m, true) :: rest.map (fun f => (f, false)) ∧
      rest.length + 1 = g.length := by
  rcases hs : g.mergeSort pathLe with - | ⟨m, rest⟩
  · exfalso
    have hperm := List.mergeSort_perm g pathLe
    rw [hs] at hperm
    exact hne hperm.symm.eq_nil
  · refine ⟨m, rest, rfl, mergeSort_head_min g m rest hs, ?_, ?_⟩
    · rw [groupMoves, hs]
    · have hperm := List.mergeSort_perm g pathLe
      rw [hs] at hperm
      have hlen := hperm.length_eq
      simpa using hlen

/-- C6: the duplicate organizer groups the scanned files by SHA-256
content hash (each group member carries the group hash; keys are
distinct); every scanned file is moved exactly once (the sources of the
moves are a permutation of the scanned files); within each hash group of
size n, the path-minimal file is moved to UNIQUE and the other n-1 files
to REPETITION; and destination collisions are resolved by numeric
suffixes chosen among the candidate names, never reusing a name already
present, so nothing is overwritten. -/
theorem mover_arquivos_dedup (files : List SFile) (u0 r0 : List (List Char)) :
    (∀ p ∈ mapear_por_hash files, ∀ x ∈ p.2, x.hash = p.1) ∧
    ((mapear_por_hash files).map Prod.fst).Nodup ∧
    (((mover_arquivos u0 r0 (mapear_por_hash files)).moves.map
      (fun m => m.1)).Perm files) ∧
    ((mover_arquivos u0 r0 (mapear_por_hash files)).moves.map
      (fun m => (m.1, m.2.1)) =
      (mapear_por_hash files).flatMap (fun p => groupMoves p.2)) ∧
    (∀ p ∈ mapear_por_hash files,
      ∃ m rest, p.2.mergeSort pathLe = m :: rest ∧
        (∀ x ∈ p.2, pathLe m x = true) ∧
        groupMoves p.2 = (m, true) :: rest.map (fun f => (f, false)) ∧
        rest.length + 1 = p.2.length) ∧
    (uniqueDests (mover_arquivos u0 r0 (mapear_por_hash files)).moves).Nodup ∧
    (∀ d ∈ uniqueDests (mover_arquivos u0 r0 (mapear_por_hash files)).moves,
      d ∉ u0) ∧
    (repDests (mover_arquivos u0 r0 (mapear_por_hash files)).moves).Nodup ∧
    (∀ d ∈ repDests (mover_arquivos u0 r0 (mapear_por_hash files)).moves,
      d ∉ r0) ∧
    (∀ mv ∈ (mover_arquivos u0 r0 (mapear_por_hash files)).moves,
      ∃ k, mv.2.2 = candName mv.1.stem mv.1.ext k) := by
  obtain ⟨-, -, hnu, hdu, hnr, hdr, hcand⟩ :=
    movesOk_mover u0 r0 (mapear_por_hash files)
  refine ⟨mapear_por_hash_hashes files, mapear_por_hash_keys_nodup files, ?_,
    mover_moves u0 r0 (mapear_por_hash files),
    fun p hp => groupMoves_structure p.2 (mapear_por_hash_ne_nil files p hp),
    hnu, hdu, hnr, hdr, hcand⟩
  have hmap : ((mover_arquivos u0 r0 (mapear_por_hash files)).moves.map
      (fun m => m.1)) =
      ((mover_arquivos u0 r0 (mapear_por_hash files)).moves.map
        (fun m => (m.1, m.2.1))).map Prod.fst := by
    rw [List.map_map]
    rfl
  rw [hmap, mover_moves u0 r0 (mapear_por_hash files), List.map_flatMap]
  refine List.Perm.trans ?_ (mapear_por_hash_flat files)
  refine flatMap_perm_of_perm _ _ _ ?_
  intro p hp
  rw [groupMoves_fst]
  exact List.mergeSort_perm p.2 pathLe

/-- Witness for C9 at a concrete input with a `#` inside the
justificativa. -/
theorem parse_line_roundtrip_witness :
    ('#' ∉ "314166".data ∧ '#' ∉ "48956314785".data ∧ '#' ∉ "10,11".data) ∧
    parse_line (SemanticaInput.to_internal_format
      ⟨"314166".data, "48956314785".data, "10,11".data, "ab#cd".data⟩) =
      Except.ok ⟨"314166".data, "48956314785".data, "10,11".data, "ab#cd".data⟩ := by
  refine ⟨⟨by decide, by decide, by decide⟩, ?_⟩
  exact (parse_line_roundtrip
    ⟨"314166".data, "48956314785".data, "10,11".data, "ab#cd".data⟩
    (by decide) (by decide) (by decide)).1

end Semantica
